import Mathlib

/-!
Verification of the datathon2025 entity-resolution and friction/unlock core.

Shallow embedding conventions:
* Python floats are modelled by exact rationals `ℚ` (and by `ℝ` where a real
  exponent is involved, namely the elasticity power in the unlock simulator).
* The IEEE value `inf` produced by `1/(1-sigma)` at `sigma >= 1` in
  `export_unlock_json.py` is modelled by `none : Option ℚ`.
* A Python runtime crash (unpacking `None` returned by
  `fuzzywuzzy.process.extractOne`) is modelled by `none` in an
  `Option`-valued result.
* `pandas` dataframes are modelled as lists of records; `dict`s as
  association lists whose order is insertion order.
-/

namespace Datathon

/-! ## Normalizer (choropleth_municipalities.py `GREEK_TO_LATIN`,
`transliterate`, `normalize`; identical table in unlock_simulator.py) -/

/-- The `GREEK_TO_LATIN` table from `choropleth_municipalities.py`
(the same table appears as `translit.table` in `unlock_simulator.py`). -/
def greek_to_latin : List (Char × List Char) :=
  [('Α', ['A']), ('Β', ['V']), ('Γ', ['G']), ('Δ', ['D']), ('Ε', ['E']),
   ('Ζ', ['Z']), ('Η', ['I']), ('Θ', ['T', 'h']),
   ('Ι', ['I']), ('Κ', ['K']), ('Λ', ['L']), ('Μ', ['M']), ('Ν', ['N']),
   ('Ξ', ['X']), ('Ο', ['O']), ('Π', ['P']),
   ('Ρ', ['R']), ('Σ', ['S']), ('Τ', ['T']), ('Υ', ['Y']), ('Φ', ['F']),
   ('Χ', ['C', 'h']), ('Ψ', ['P', 's']), ('Ω', ['O']),
   ('ά', ['a']), ('έ', ['e']), ('ί', ['i']), ('ό', ['o']), ('ύ', ['y']),
   ('ή', ['i']), ('ώ', ['o']), ('ϊ', ['i']),
   ('ϋ', ['y']), ('ΐ', ['i']), ('ΰ', ['y']), ('ς', ['s']), ('α', ['a']),
   ('β', ['v']), ('γ', ['g']), ('δ', ['d']),
   ('ε', ['e']), ('ζ', ['z']), ('η', ['i']), ('θ', ['t', 'h']),
   ('ι', ['i']), ('κ', ['k']), ('λ', ['l']), ('μ', ['m']),
   ('ν', ['n']), ('ξ', ['x']), ('ο', ['o']), ('π', ['p']), ('ρ', ['r']),
   ('σ', ['s']), ('τ', ['t']), ('υ', ['y']),
   ('φ', ['f']), ('χ', ['c', 'h']), ('ψ', ['p', 's']), ('ω', ['o'])]

/-- `GREEK_TO_LATIN.get(ch, ch)`: one character of `transliterate`. -/
def transliterate_char (c : Char) : List Char :=
  match greek_to_latin.lookup c with
  | some s => s
  | none => [c]

/-- `transliterate(text) = "".join(GREEK_TO_LATIN.get(ch, ch) for ch in text)`. -/
def transliterate (l : List Char) : List Char :=
  l.flatMap transliterate_char

/-- One character of Python `str.lower()`; ASCII case (codes 65–90 map to
97–122), which is the only case whose result can survive the `[^a-z0-9]`
strip in `normalize`. -/
def lower_char (c : Char) : Char :=
  if 65 ≤ c.toNat ∧ c.toNat ≤ 90 then Char.ofNat (c.toNat + 32) else c

/-- Does `c` survive `re.sub(r"[^a-z0-9]+", "", ·)`? Codes 97–122 are
`a`–`z`, codes 48–57 are `0`–`9`. -/
def is_alnum_lower (c : Char) : Bool :=
  (97 ≤ c.toNat && c.toNat ≤ 122) || (48 ≤ c.toNat && c.toNat ≤ 57)

/-- `normalize` from `choropleth_municipalities.py` (and, identically,
`unlock_simulator.py`): transliterate, lowercase, strip non-`[a-z0-9]`. -/
def normalizeL (l : List Char) : List Char :=
  ((transliterate l).map lower_char).filter is_alnum_lower

/-- String-level `normalize`. -/
def normalize (s : String) : String :=
  ⟨normalizeL s.data⟩

/-! ## Index builder and matcher (choropleth_municipalities.py
`build_name_index`/`match_names`; unlock_simulator.py `build_index`/
`match_names`).  Python dicts are modelled as association lists in
insertion order. -/

/-- `build_name_index` / `build_index`: normalized key → original name,
first occurrence wins, empty keys skipped. -/
def build_index (names : List String) : List (String × String) :=
  names.foldl
    (fun idx n =>
      let key := normalize n
      if key ≠ "" ∧ idx.lookup key = none then idx ++ [(key, n)] else idx)
    []

/-- Python `max(candidates, key=lambda i: i[1])` as used inside
`fuzzywuzzy.process.extractOne`: the first maximal element by iteration
order, or `none` for an empty list (where Python `max` raises and
`extractOne` returns `None`). -/
def max_by_score : List (String × ℚ) → Option (String × ℚ)
  | [] => none
  | p :: ps =>
    match max_by_score ps with
    | none => some p
    | some q => if p.2 < q.2 then some q else some p

/-- `fuzzywuzzy.process.extractOne(query, choices, scorer=...)` with its
default `score_cutoff=0`: score every choice, keep those scoring at least
0, return the best (first among ties) or `None` when nothing remains.  The
scorer (`fuzz.token_sort_ratio` in the scripts) is abstracted as a
parameter; the normalized keys fed to it are already lowercase
alphanumeric, so the library's default processor is the identity on
them. -/
def extractOne (scorer : String → String → ℚ) (query : String)
    (choices : List String) : Option (String × ℚ) :=
  max_by_score
    ((choices.map fun c => (c, scorer query c)).filter fun p =>
      decide (0 ≤ p.2))

/-- `match_names` from `choropleth_municipalities.py`: per target, exact
normalized-key lookup (score 100); on miss, `continue` (skip the target)
when the index is empty (`if not cand_norms`), else fall back to
`extractOne`.  A `none` result models the `TypeError` raised by unpacking
an `extractOne` result of `None` (only reachable when every candidate
scores below the cutoff). -/
def match_names (scorer : String → String → ℚ) :
    List String → List (String × String) → Option (List (String × String × ℚ))
  | [], _ => some []
  | t :: ts, candidates =>
    match candidates.lookup (normalize t) with
    | some v =>
      match match_names scorer ts candidates with
      | some l => some ((t, v, 100) :: l)
      | none => none
    | none =>
      if candidates = [] then match_names scorer ts candidates
      else
        match extractOne scorer (normalize t) (candidates.map Prod.fst) with
        | some (best, score) =>
          match match_names scorer ts candidates with
          | some l => some ((t, (candidates.lookup best).getD "", score) :: l)
          | none => none
        | none => none

/-- `match_names` from `unlock_simulator.py`: same, but with no empty-index
guard — `best, _ = process.extractOne(key, cand_keys, ...)` unpacks the
result unconditionally, so an empty index (or an all-below-cutoff score
list) raises a `TypeError`, modelled by `none`. -/
def match_names_sim (scorer : String → String → ℚ) :
    List String → List (String × String) → Option (List (String × String))
  | [], _ => some []
  | t :: ts, candidates =>
    match candidates.lookup (normalize t) with
    | some v =>
      match match_names_sim scorer ts candidates with
      | some l => some ((t, v) :: l)
      | none => none
    | none =>
      match extractOne scorer (normalize t) (candidates.map Prod.fst) with
      | some (best, _) =>
        match match_names_sim scorer ts candidates with
        | some l => some ((t, (candidates.lookup best).getD "") :: l)
        | none => none
      | none => none

/-! ## Friction model (unlock_simulator.py `compute_friction`) -/

/-- `compute_friction`: `F = 1 / (1 - sigma.clip(upper=1 - eps))` with
`eps = 1e-9`.  Stated over any linear ordered field so that it can be read
at `ℚ` (exact evaluation) and at `ℝ` (where the elasticity power lives). -/
def compute_friction {K : Type} [LinearOrderedField K] (sigma : K) : K :=
  1 / (1 - min sigma (1 - 1 / 1000000000))

/-- `sigma_new = sigma * (1 - unlock_fraction)` from `simulate_unlock`. -/
def sigma_after_unlock {K : Type} [LinearOrderedField K] (u sigma : K) : K :=
  sigma * (1 - u)

/-- `price_ratio = (F_new / F_baseline) ** alpha` from `simulate_unlock`
(real exponent, hence `ℝ` and `Real.rpow`). -/
noncomputable def price_ratio_sim (u alpha sigma : ℝ) : ℝ :=
  (compute_friction (sigma_after_unlock u sigma) / compute_friction sigma) ^ alpha

/-- `price_change_pct = (ratio - 1.0) * 100.0` from `simulate_unlock`. -/
noncomputable def price_change_pct_sim (u alpha sigma : ℝ) : ℝ :=
  (price_ratio_sim u alpha sigma - 1) * 100

/-! ## Unlock export (export_unlock_json.py `apply_unlock`) -/

/-- One municipality record of `friction_by_municipality.json` as read by
`apply_unlock` (`rec.get("s_total", 0)`, `rec.get("s_empty", 0)`,
`rec.get("sigma", 0)`, `rec.get("F", 1.0)`; absent keys are modelled by the
corresponding default already substituted). -/
structure MuniRec where
  s_total : ℚ
  s_empty : ℚ
  sigma : ℚ
  F : ℚ

/-- The per-municipality fields `apply_unlock` adds to a record. -/
structure UnlockedRec where
  s_empty_unlocked : ℚ
  sigma_unlocked : ℚ
  F_unlocked : Option ℚ
  price_change_pct_unlocked : Option ℚ

/-- `F_new = 1.0 / (1.0 - sigma_new) if sigma_new < 1 else float("inf")`;
the IEEE `inf` is modelled by `none`. -/
def F_guard (s : ℚ) : Option ℚ :=
  if s < 1 then some (1 / (1 - s)) else none

/-- The loop body of `apply_unlock` for one record.  `factor` is
`1.0 - unlock_pct / 100.0`.  The Python guard `if F_old and F_old != 0`
is `F_old ≠ 0` for floats (`0.0` is the only falsy float there). -/
def apply_unlock_rec (factor : ℚ) (r : MuniRec) : UnlockedRec :=
  let s_empty_new := r.s_empty * factor
  let sigma_new := if 0 < r.s_total then s_empty_new / r.s_total else 0
  let F_new := F_guard sigma_new
  let price_ratio : Option ℚ :=
    if r.F ≠ 0 then F_new.map (fun f => f / r.F) else some 1
  { s_empty_unlocked := s_empty_new
    sigma_unlocked := sigma_new
    F_unlocked := F_new
    price_change_pct_unlocked := price_ratio.map (fun pr => (pr - 1) * 100) }

/-- The `"national"` block `apply_unlock` returns. -/
structure NationalOut where
  s_total : ℚ
  s_empty_unlocked : ℚ
  sigma_unlocked : ℚ
  F_unlocked : Option ℚ
  price_change_pct_unlocked : Option ℚ

/-- `apply_unlock(data, unlock_pct)` from `export_unlock_json.py`.
`natF` models `data.get("national", {}).get("F", 1.0)` (`none` when the
input has no `"national"` block, in which case the national price ratio is
fixed to `1.0`).  The running sums of the Python loop are expressed as sums
over the record list. -/
def apply_unlock (unlock_pct : ℚ) (natF : Option ℚ) (recs : List MuniRec) :
    NationalOut × List UnlockedRec :=
  let factor := 1 - unlock_pct / 100
  let out_muni := recs.map (apply_unlock_rec factor)
  let national_tot_s := (recs.map MuniRec.s_total).sum
  let national_tot_empty := (recs.map fun r => r.s_empty * factor).sum
  let sigma_nat :=
    if 0 < national_tot_s then national_tot_empty / national_tot_s else 0
  let F_nat := F_guard sigma_nat
  let price_ratio_nat : Option ℚ :=
    match natF with
    | some f => F_nat.map fun x => x / f
    | none => some 1
  ({ s_total := national_tot_s
     s_empty_unlocked := national_tot_empty
     sigma_unlocked := sigma_nat
     F_unlocked := F_nat
     price_change_pct_unlocked := price_ratio_nat.map fun pr => (pr - 1) * 100 },
   out_muni)

/-- A record that satisfies the data model of the spec: `sigma` is derived
as `s_empty / s_total` (requiring `s_total > 0`), `sigma < 1`, and `F` is
the friction factor `1 / (1 - sigma)`.  This is how
`compute_f_by_municipality.py` populates `friction_by_municipality.json`. -/
def MuniRec.consistent (r : MuniRec) : Prop :=
  0 < r.s_total ∧ r.sigma = r.s_empty / r.s_total ∧ r.sigma < 1 ∧
    r.F = 1 / (1 - r.sigma)

/-! ## Vacancy composition shares (analyze_vacancy_composition.py
`load_data`) -/

/-- One municipality row of `analyze_vacancy_composition.py` after numeric
coercion. -/
structure CompRec where
  s_total : ℚ
  s_empty : ℚ
  for_rent : ℚ
  for_sale : ℚ
  vacation : ℚ
  secondary : ℚ
  other_reason : ℚ

/-- `df["share_market"] = (df["for_rent"] + df["for_sale"]) / df["s_total"]`. -/
def share_market (r : CompRec) : ℚ :=
  (r.for_rent + r.for_sale) / r.s_total

/-- `df["share_tourism"] = (df["vacation"] + df["secondary"]) / df["s_total"]`. -/
def share_tourism (r : CompRec) : ℚ :=
  (r.vacation + r.secondary) / r.s_total

/-- `df["share_system_failure"] = df["other_reason"] / df["s_total"]`. -/
def share_system_failure (r : CompRec) : ℚ :=
  r.other_reason / r.s_total

/-! ## Many-to-one override aggregation (choropleth_municipalities.py
`prepare_dataframe`, the `overrides_many` loop) -/

/-- A source row of `muni_df` (one record of
`friction_by_municipality.json`, as produced by
`compute_f_by_municipality.py`): `code, name, s_total, s_empty, for_rent,
for_sale, vacation, secondary, other_reason, sigma, F, true_locked_pct`.
The aggregation loop reads only `name`, `sigma` and `s_total`, but all
columns exist in the frame. -/
structure SrcRow where
  code : ℚ
  name : String
  s_total : ℚ
  s_empty : ℚ
  for_rent : ℚ
  for_sale : ℚ
  vacation : ℚ
  secondary : ℚ
  other_reason : ℚ
  sigma : ℚ
  F : ℚ
  true_locked_pct : ℚ
deriving DecidableEq

/-- The synthetic row appended for a many-to-one override, as it sits in
the concatenated frame: the loop writes only `name`, `matched_name`,
`match_score`, `sigma` and `s_total`; `pd.concat` aligns columns and fills
every other column of the synthetic row with `NaN`, modelled `none`. -/
structure AggRow where
  name : String
  matched_name : String
  match_score : ℚ
  sigma : ℚ
  s_total : ℚ
  code : Option ℚ
  s_empty : Option ℚ
  for_rent : Option ℚ
  for_sale : Option ℚ
  vacation : Option ℚ
  secondary : Option ℚ
  other_reason : Option ℚ
  F : Option ℚ
  true_locked_pct : Option ℚ
deriving DecidableEq

/-- One iteration of the `overrides_many` loop in `prepare_dataframe`:
gather the subset of rows whose `name` is in `greek_list`; if the subset is
empty or its summed `s_total` is zero, emit nothing (`continue`); otherwise
emit the synthetic aggregated row: `s_total`-weighted sigma, summed
`s_total`, score 100 — and `NaN` (`none`) in every column the loop does
not write. -/
def agg_override (gadm_name : String) (greek_list : List String)
    (rows : List SrcRow) : Option AggRow :=
  let subset := rows.filter fun r => decide (r.name ∈ greek_list)
  if subset = [] then none
  else
    let total := (subset.map SrcRow.s_total).sum
    if total = 0 then none
    else
      some { name := gadm_name ++ " (agg)"
             matched_name := gadm_name
             match_score := 100
             sigma := (subset.map fun r => r.sigma * r.s_total).sum / total
             s_total := total
             code := none
             s_empty := none
             for_rent := none
             for_sale := none
             vacation := none
             secondary := none
             other_reason := none
             F := none
             true_locked_pct := none }

/-! ## Deduplicator (choropleth_municipalities.py `prepare_dataframe`
lines `sort_values(by=["match_score"], ascending=False)` +
`drop_duplicates(subset=["matched_name"])`; the same pair of calls appears
in choropleth_eu_benchmark.py `prepare_dataframe`). -/

/-- A row as fed to the dedup step: `matched` is `matched_name`
(`none` = pandas `NA`), `score` is `match_score` (`none` = `NA`). -/
structure MRow where
  name : String
  matched : Option String
  score : Option ℚ
deriving DecidableEq

/-- The `sort_values(by=["match_score"], ascending=False)` comparator:
`row_le a b` means `a` may come before `b` — descending by score, with
`NA` scores last (pandas default `na_position="last"`). -/
def row_le (a b : MRow) : Bool :=
  match a.score, b.score with
  | _, none => true
  | none, some _ => false
  | some x, some y => decide (y ≤ x)

/-- `drop_duplicates(subset=["matched_name"])`: keep the first row seen for
each `matched_name` value; pandas treats `NA` as an ordinary key here, so
at most one `NA`-matched row survives (it is **not** dropped).  `seen` is
the set of keys already kept. -/
def drop_dup_by : List MRow → List (Option String) → List MRow
  | [], _ => []
  | r :: rs, seen =>
    if r.matched ∈ seen then drop_dup_by rs seen
    else r :: drop_dup_by rs (r.matched :: seen)

/-- What `sort_values(by=["match_score"], ascending=False)` guarantees of
its output `S` on input `rows` under the scripts' default
`kind='quicksort'`: `S` is **some** permutation of `rows` that is sorted
descending by score (`NA` last).  Quicksort is not stable, so the relative
order of rows with equal scores is unspecified; any `S` satisfying this
predicate is a possible output. -/
def sorted_desc (rows S : List MRow) : Prop :=
  List.Perm S rows ∧ S.Pairwise fun a b => row_le a b = true

/-- The `drop_duplicates(subset=["matched_name"])` step applied to the
sorted frame `S`. -/
def dedup_from (S : List MRow) : List MRow :=
  drop_dup_by S []

/-- Maximum of two scores, `NA` being the bottom element. -/
def omax : Option ℚ → Option ℚ → Option ℚ
  | none, y => y
  | x, none => x
  | some a, some b => some (max a b)

/-- The maximal score of a row group (`none` iff every score is `NA` or
the group is empty). -/
def max_score (g : List MRow) : Option ℚ :=
  g.foldr (fun r m => omax r.score m) none

/-- The order on scores with `NA` at the bottom (the propositional mirror
of `row_le`, which is descending). -/
def score_le : Option ℚ → Option ℚ → Prop
  | none, _ => True
  | some _, none => False
  | some a, some b => a ≤ b

end Datathon

namespace Datathon

theorem compute_friction_pos {K : Type} [LinearOrderedField K] (s : K) :
    0 < compute_friction s := by
  have h : min s (1 - 1 / 1000000000) ≤ 1 - 1 / 1000000000 :=
    min_le_right _ _
  have h9 : (0 : K) < 1 / 1000000000 := by norm_num
  have : (0 : K) < 1 - min s (1 - 1 / 1000000000) := by linarith
  exact div_pos one_pos this

theorem greek_keys_large : ∀ p ∈ greek_to_latin, 256 ≤ p.1.toNat := by decide

theorem lookup_none_of_small (c : Char) (tbl : List (Char × List Char))
    (hk : ∀ p ∈ tbl, 256 ≤ p.1.toNat) (hc : c.toNat < 256) :
    tbl.lookup c = none := by
  induction tbl with
  | nil => rfl
  | cons p t ih =>
    have h1 : 256 ≤ p.1.toNat := hk p (List.mem_cons_self p t)
    have hne : (c == p.1) = false := by
      apply beq_false_of_ne
      intro h
      rw [h] at hc
      omega
    simp only [List.lookup, hne]
    exact ih fun q hq => hk q (List.mem_cons_of_mem p hq)

theorem transliterate_char_fixed {c : Char} (hc : is_alnum_lower c = true) :
    transliterate_char c = [c] := by
  have hlt : c.toNat < 256 := by
    simp only [is_alnum_lower, Bool.or_eq_true, Bool.and_eq_true,
      decide_eq_true_eq] at hc
    omega
  simp [transliterate_char, lookup_none_of_small c greek_to_latin greek_keys_large hlt]

theorem lower_char_fixed {c : Char} (hc : is_alnum_lower c = true) :
    lower_char c = c := by
  have : ¬ (65 ≤ c.toNat ∧ c.toNat ≤ 90) := by
    simp only [is_alnum_lower, Bool.or_eq_true, Bool.and_eq_true,
      decide_eq_true_eq] at hc
    omega
  simp [lower_char, this]

theorem normalizeL_cons_alnum (c : Char) (t : List Char)
    (hc : is_alnum_lower c = true) :
    normalizeL (c :: t) = c :: normalizeL t := by
  simp [normalizeL, transliterate, transliterate_char_fixed hc,
    lower_char_fixed hc, hc]

theorem normalizeL_fixed :
    ∀ l : List Char, (∀ c ∈ l, is_alnum_lower c = true) → normalizeL l = l
  | [], _ => rfl
  | c :: t, h => by
    rw [normalizeL_cons_alnum c t (h c (List.mem_cons_self c t)),
      normalizeL_fixed t fun d hd => h d (List.mem_cons_of_mem c hd)]

theorem mem_normalizeL_alnum {l : List Char} {c : Char}
    (hc : c ∈ normalizeL l) : is_alnum_lower c = true :=
  (List.mem_filter.mp hc).2

/-- C8: `normalize` (transliterate via the fixed Greek-to-Latin table, then
lowercase, then remove every character that is not an ASCII letter or digit)
is idempotent: applying it twice equals applying it once, for every input
string. -/
theorem normalize_idempotent (s : String) :
    normalize (normalize s) = normalize s := by
  show (⟨normalizeL (normalizeL s.data)⟩ : String) = ⟨normalizeL s.data⟩
  rw [normalizeL_fixed (normalizeL s.data) fun c hc => mem_normalizeL_alnum hc]

/-- C9: for every record with `s_total > 0` whose breakdown counts sum to
`s_empty`, the three composition shares of
`analyze_vacancy_composition.load_data` sum to `sigma = s_empty / s_total`
— exactly, hence in particular within the floating-point tolerance 1e-9. -/
theorem shares_sum_to_sigma (r : CompRec) (hpos : 0 < r.s_total)
    (hsum : r.for_rent + r.for_sale + r.vacation + r.secondary +
      r.other_reason = r.s_empty) :
    share_market r + share_tourism r + share_system_failure r =
      r.s_empty / r.s_total ∧
    |share_market r + share_tourism r + share_system_failure r -
      r.s_empty / r.s_total| ≤ 1 / 1000000000 := by
  have h1 : share_market r + share_tourism r + share_system_failure r =
      (r.for_rent + r.for_sale + r.vacation + r.secondary + r.other_reason) /
        r.s_total := by
    rw [share_market, share_tourism, share_system_failure]
    ring
  rw [h1, hsum]
  refine ⟨rfl, ?_⟩
  rw [sub_self, abs_zero]
  norm_num

/-- C9 witness: a concrete record with `s_total = 1000`, `s_empty = 250`
and breakdown `100 + 50 + 60 + 30 + 10 = 250`. -/
theorem shares_sum_to_sigma_witness :
    share_market ⟨1000, 250, 100, 50, 60, 30, 10⟩ +
      share_tourism ⟨1000, 250, 100, 50, 60, 30, 10⟩ +
      share_system_failure ⟨1000, 250, 100, 50, 60, 30, 10⟩ =
      (250 : ℚ) / 1000 :=
  (shares_sum_to_sigma ⟨1000, 250, 100, 50, 60, 30, 10⟩ (by norm_num)
    (by norm_num)).1

/-- C2 counterexample: the claim says a computation hitting `sigma >= 1` or
`s_total == 0` surfaces a computation error for that record.  Instead,
`compute_friction` silently clamps `sigma = 3/2` to `1 - 1e-9` and returns
the finite value `1e9`, and `apply_unlock` maps a record with
`s_total = 0` to `sigma_new = 0` and `F_new = 1` — a silent "no effect"
value — with a defined price change. -/
theorem friction_clamp_counterexample :
    compute_friction ((3 : ℚ) / 2) = 1000000000 ∧
    (apply_unlock_rec 1 ⟨0, 5, 2, 1⟩).sigma_unlocked = 0 ∧
    (apply_unlock_rec 1 ⟨0, 5, 2, 1⟩).F_unlocked = some 1 ∧
    (apply_unlock_rec 1 ⟨0, 5, 2, 1⟩).price_change_pct_unlocked = some 0 := by
  refine ⟨?_, ?_, ?_, ?_⟩
  · rw [compute_friction, min_eq_right (by norm_num)]
    norm_num
  · simp [apply_unlock_rec]
  · simp [apply_unlock_rec, F_guard]
  · simp [apply_unlock_rec, F_guard]

/-- C2 amended: for every `sigma >= 1` the friction computation clamps to
`1 - 1e-9` and returns the finite value `1e9` (no error), and for every
record with `s_total = 0` and every unlock factor, `apply_unlock` silently
produces `sigma_new = 0`, `F_new = 1` and a defined (non-`inf`) price
change — no computation error is surfaced for the record. -/
theorem friction_clamp_amended (s : ℚ) (hs : 1 ≤ s) (u : ℚ) (r : MuniRec)
    (h0 : r.s_total = 0) :
    compute_friction s = 1000000000 ∧
    (apply_unlock_rec u r).sigma_unlocked = 0 ∧
    (apply_unlock_rec u r).F_unlocked = some 1 ∧
    (apply_unlock_rec u r).price_change_pct_unlocked ≠ none := by
  refine ⟨?_, ?_, ?_, ?_⟩
  · rw [compute_friction, min_eq_right (by linarith)]
    norm_num
  · simp [apply_unlock_rec, h0]
  · simp [apply_unlock_rec, F_guard, h0]
  · simp only [apply_unlock_rec, F_guard, h0]
    norm_num
    split
    · simp
    · simp

/-- C2 amended witness: the amended behaviour at `sigma = 2` and a record
with `s_total = 0`. -/
theorem friction_clamp_amended_witness :
    compute_friction (2 : ℚ) = 1000000000 ∧
    (apply_unlock_rec (1 / 2) ⟨0, 7, 3, 2⟩).sigma_unlocked = 0 :=
  ⟨(friction_clamp_amended 2 (by norm_num) (1 / 2) ⟨0, 7, 3, 2⟩ rfl).1,
   (friction_clamp_amended 2 (by norm_num) (1 / 2) ⟨0, 7, 3, 2⟩ rfl).2.1⟩

/-- C5: running the unlock simulation with unlock fraction `u = 0` is a
no-op: in `simulate_unlock`, `sigma_new = sigma` and `price_change_pct = 0`
for every record and elasticity; and in `apply_unlock` (whose factor for
`unlock_pct = 0` is `1 - 0/100`), every record consistent with the data
model (`sigma = s_empty / s_total < 1`, `F = 1/(1-sigma)`) keeps its sigma
and gets price change exactly `0`. -/
theorem unlock_zero_noop (σ α : ℝ) (r : MuniRec) (h : r.consistent) :
    sigma_after_unlock 0 σ = σ ∧
    price_change_pct_sim 0 α σ = 0 ∧
    (apply_unlock_rec (1 - 0 / 100) r).sigma_unlocked = r.sigma ∧
    (apply_unlock_rec (1 - 0 / 100) r).price_change_pct_unlocked = some 0 := by
  obtain ⟨hpos, hsig, hlt, hF⟩ := h
  have hσ0 : sigma_after_unlock (0 : ℝ) σ = σ := by
    rw [sigma_after_unlock]
    ring
  have hsu : (apply_unlock_rec (1 - 0 / 100) r).sigma_unlocked = r.sigma := by
    simp only [apply_unlock_rec, if_pos hpos]
    rw [hsig]
    ring
  refine ⟨hσ0, ?_, hsu, ?_⟩
  · rw [price_change_pct_sim, price_ratio_sim, hσ0,
      div_self (ne_of_gt (compute_friction_pos σ)), Real.one_rpow]
    ring
  · have hFpos : 0 < r.F := by
      rw [hF]
      have : 0 < 1 - r.sigma := by linarith
      positivity
    have hFg : F_guard ((apply_unlock_rec (1 - 0 / 100) r).sigma_unlocked) =
        some r.F := by
      rw [hsu, F_guard, if_pos hlt, hF]
    simp only [apply_unlock_rec] at hFg ⊢
    rw [hFg, if_pos (ne_of_gt hFpos)]
    simp [div_self (ne_of_gt hFpos)]

/-- C5 witness: the no-op at `sigma = 1/2`, `alpha = 2` and the consistent
record `s_total = 4`, `s_empty = 1`, `sigma = 1/4`, `F = 4/3`. -/
theorem unlock_zero_noop_witness :
    price_change_pct_sim 0 2 (1 / 2) = 0 ∧
    (apply_unlock_rec (1 - 0 / 100) ⟨4, 1, 1 / 4, 4 / 3⟩).sigma_unlocked =
      (1 : ℚ) / 4 :=
  ⟨(unlock_zero_noop (1 / 2) 2 ⟨4, 1, 1 / 4, 4 / 3⟩
      (by refine ⟨by norm_num, by norm_num, by norm_num, by norm_num⟩)).2.1,
   (unlock_zero_noop (1 / 2) 2 ⟨4, 1, 1 / 4, 4 / 3⟩
      (by refine ⟨by norm_num, by norm_num, by norm_num, by norm_num⟩)).2.2.1⟩

theorem compute_friction_mono {K : Type} [LinearOrderedField K] {s t : K}
    (h : s ≤ t) : compute_friction s ≤ compute_friction t := by
  rw [compute_friction, compute_friction]
  have hst : min s (1 - 1 / 1000000000) ≤ min t (1 - 1 / 1000000000) :=
    min_le_min h le_rfl
  have ht : min t (1 - 1 / 1000000000) ≤ 1 - 1 / 1000000000 :=
    min_le_right _ _
  have hpos : (0 : K) < 1 - min t (1 - 1 / 1000000000) := by
    have h9 : (0 : K) < 1 / 1000000000 := by norm_num
    linarith
  exact one_div_le_one_div_of_le hpos (by linarith)

/-- C6: for every record with `sigma >= 0` and fixed elasticity `alpha > 0`,
the unlock simulation is monotonic in `u`: for `0 <= u1 <= u2 <= 1`,
`price_change_pct` at `u2` is at most `price_change_pct` at `u1` — prices
only fall or stay flat as more stock unlocks. -/
theorem unlock_monotone (σ α u₁ u₂ : ℝ) (hσ : 0 ≤ σ) (hα : 0 < α)
    (h1 : 0 ≤ u₁) (h12 : u₁ ≤ u₂) (h2 : u₂ ≤ 1) :
    price_change_pct_sim u₂ α σ ≤ price_change_pct_sim u₁ α σ := by
  have hs : sigma_after_unlock u₂ σ ≤ sigma_after_unlock u₁ σ := by
    rw [sigma_after_unlock, sigma_after_unlock]
    exact mul_le_mul_of_nonneg_left (by linarith) hσ
  have hF := compute_friction_mono hs
  have hFb : 0 < compute_friction σ := compute_friction_pos σ
  have hr : compute_friction (sigma_after_unlock u₂ σ) / compute_friction σ ≤
      compute_friction (sigma_after_unlock u₁ σ) / compute_friction σ :=
    (div_le_div_iff_of_pos_right hFb).mpr hF
  have h0 : 0 ≤ compute_friction (sigma_after_unlock u₂ σ) /
      compute_friction σ :=
    div_nonneg (compute_friction_pos _).le hFb.le
  have hrp := Real.rpow_le_rpow h0 hr hα.le
  rw [price_change_pct_sim, price_change_pct_sim, price_ratio_sim,
    price_ratio_sim]
  nlinarith [hrp]

/-- C6 witness: monotonicity at `sigma = 1/2`, `alpha = 1`, `u1 = 0`,
`u2 = 1/2`. -/
theorem unlock_monotone_witness :
    price_change_pct_sim (1 / 2) 1 (1 / 2) ≤ price_change_pct_sim 0 1 (1 / 2) :=
  unlock_monotone (1 / 2) 1 0 (1 / 2) (by norm_num) (by norm_num)
    (by norm_num) (by norm_num) (by norm_num)

/-- C1: for every unlock fraction `u` (passed to `apply_unlock` as the
percentage `100 * u`) and every record set with positive total stock, the
national sigma equals the ratio of sums `Σ(s_empty·(1-u)) / Σ(s_total)`
over the full record set, and the national `F` is obtained by feeding that
sigma through the same `F` formula used per record; moreover (third
conjunct) on a concrete two-record set it differs from the arithmetic mean
of the per-municipality `sigma_new` values. -/
theorem apply_unlock_national_ratio_of_sums (u : ℚ) (natF : Option ℚ)
    (recs : List MuniRec) (hpos : 0 < (recs.map MuniRec.s_total).sum) :
    (apply_unlock (100 * u) natF recs).1.sigma_unlocked =
      (recs.map fun r => r.s_empty * (1 - u)).sum /
        (recs.map MuniRec.s_total).sum ∧
    (apply_unlock (100 * u) natF recs).1.F_unlocked =
      F_guard ((apply_unlock (100 * u) natF recs).1.sigma_unlocked) ∧
    (apply_unlock 50 none [⟨10, 5, 1 / 2, 2⟩, ⟨100, 10, 1 / 10, 10 / 9⟩]).1.sigma_unlocked ≠
      ((apply_unlock 50 none [⟨10, 5, 1 / 2, 2⟩, ⟨100, 10, 1 / 10, 10 / 9⟩]).2.map
          UnlockedRec.sigma_unlocked).sum /
        ((apply_unlock 50 none [⟨10, 5, 1 / 2, 2⟩, ⟨100, 10, 1 / 10, 10 / 9⟩]).2.length : ℚ) := by
  have hfe : (fun r : MuniRec => r.s_empty * (1 - 100 * u / 100)) =
      fun r : MuniRec => r.s_empty * (1 - u) := by
    funext r
    ring
  refine ⟨?_, ?_, ?_⟩
  · simp only [apply_unlock, hfe, if_pos hpos]
  · simp only [apply_unlock]
  · simp only [apply_unlock, apply_unlock_rec, List.map_cons, List.map_nil,
      List.sum_cons, List.sum_nil, List.length_cons, List.length_nil]
    norm_num

/-- C1 witness: the ratio-of-sums identity evaluated on a one-record set at
`u = 1/5`. -/
theorem apply_unlock_national_ratio_of_sums_witness :
    (apply_unlock (100 * (1 / 5)) none [⟨10, 5, 1 / 2, 2⟩]).1.sigma_unlocked =
      (([⟨10, 5, 1 / 2, 2⟩] : List MuniRec).map fun r =>
          r.s_empty * (1 - 1 / 5)).sum /
        (([⟨10, 5, 1 / 2, 2⟩] : List MuniRec).map MuniRec.s_total).sum :=
  (apply_unlock_national_ratio_of_sums (1 / 5) none [⟨10, 5, 1 / 2, 2⟩]
    (by norm_num)).1

/-- C4 counterexample: the claim says the synthetic record's count fields
equal the subset's sums (and its ratio fields the weighted averages).  On
a concrete two-row subset whose `s_empty` values sum to 60, the emitted
synthetic row has `s_empty = NaN` (`none`), not 60 — and likewise every
count/ratio column other than `sigma` and `s_total` is `NaN`. -/
theorem agg_override_nan_columns :
    agg_override "Lesbos" ["ΔΥΤΙΚΗΣ ΛΕΣΒΟΥ", "ΜΥΤΙΛΗΝΗΣ"]
        [⟨1, "ΔΥΤΙΚΗΣ ΛΕΣΒΟΥ", 100, 20, 5, 5, 4, 4, 2, 1 / 5, 5 / 4, 1 / 50⟩,
         ⟨2, "ΜΥΤΙΛΗΝΗΣ", 100, 40, 10, 10, 8, 8, 4, 2 / 5, 5 / 3, 1 / 25⟩] =
      some ⟨"Lesbos (agg)", "Lesbos", 100, 3 / 10, 200,
        none, none, none, none, none, none, none, none, none⟩ ∧
    ((([⟨1, "ΔΥΤΙΚΗΣ ΛΕΣΒΟΥ", 100, 20, 5, 5, 4, 4, 2, 1 / 5, 5 / 4, 1 / 50⟩,
        ⟨2, "ΜΥΤΙΛΗΝΗΣ", 100, 40, 10, 10, 8, 8, 4, 2 / 5, 5 / 3,
          1 / 25⟩] : List SrcRow).filter fun r =>
        decide (r.name ∈ ["ΔΥΤΙΚΗΣ ΛΕΣΒΟΥ", "ΜΥΤΙΛΗΝΗΣ"])).map
      SrcRow.s_empty).sum = 60 ∧
    (none : Option ℚ) ≠ some 60 := by
  refine ⟨?_, ?_, by simp⟩
  · rw [agg_override]
    norm_num [List.filter]
    exact ⟨List.cons_ne_nil _ _, rfl⟩
  · norm_num [List.filter]

/-- C4 amended: a many-to-one override emits no synthetic record exactly
when the gathered subset is empty or its summed `s_total` is zero;
otherwise it emits exactly one synthetic record with `matched_name` the
override's candidate key, score 100, `s_total` the subset's sum, and sigma
the `s_total`-weighted average of the subset's sigmas (the concrete
conjunct checks the spec's case: sigmas `[1/5, 2/5]` with `s_total = 100`
each give exactly `3/10`) — but every other count and ratio column of the
synthetic row (`code`, `s_empty`, `for_rent`, `for_sale`, `vacation`,
`secondary`, `other_reason`, `F`, `true_locked_pct`) is left `NaN` by the
concat, not filled with subset sums or weighted averages. -/
theorem agg_override_weighted (gadm : String) (greek : List String)
    (rows : List SrcRow)
    (hne : rows.filter (fun r => decide (r.name ∈ greek)) ≠ [])
    (htot : ((rows.filter fun r => decide (r.name ∈ greek)).map
      SrcRow.s_total).sum ≠ 0) :
    agg_override gadm greek rows =
      some { name := gadm ++ " (agg)"
             matched_name := gadm
             match_score := 100
             sigma := ((rows.filter fun r => decide (r.name ∈ greek)).map
                 fun r => r.sigma * r.s_total).sum /
               ((rows.filter fun r => decide (r.name ∈ greek)).map
                 SrcRow.s_total).sum
             s_total := ((rows.filter fun r => decide (r.name ∈ greek)).map
               SrcRow.s_total).sum
             code := none
             s_empty := none
             for_rent := none
             for_sale := none
             vacation := none
             secondary := none
             other_reason := none
             F := none
             true_locked_pct := none } ∧
    (∀ g2 gl2 rows2, rows2.filter (fun r : SrcRow => decide (r.name ∈ gl2)) = [] →
      agg_override g2 gl2 rows2 = none) ∧
    (∀ g2 gl2 rows2,
      ((rows2.filter fun r : SrcRow => decide (r.name ∈ gl2)).map
        SrcRow.s_total).sum = 0 → agg_override g2 gl2 rows2 = none) ∧
    agg_override "Lesbos" ["ΔΥΤΙΚΗΣ ΛΕΣΒΟΥ", "ΜΥΤΙΛΗΝΗΣ"]
        [⟨1, "ΔΥΤΙΚΗΣ ΛΕΣΒΟΥ", 100, 20, 5, 5, 4, 4, 2, 1 / 5, 5 / 4, 1 / 50⟩,
         ⟨2, "ΜΥΤΙΛΗΝΗΣ", 100, 40, 10, 10, 8, 8, 4, 2 / 5, 5 / 3, 1 / 25⟩] =
      some ⟨"Lesbos (agg)", "Lesbos", 100, 3 / 10, 200,
        none, none, none, none, none, none, none, none, none⟩ := by
  refine ⟨?_, ?_, ?_, ?_⟩
  · rw [agg_override]
    simp only [if_neg hne, if_neg htot]
  · intro g2 gl2 rows2 h
    rw [agg_override]
    simp [h]
  · intro g2 gl2 rows2 h
    rw [agg_override]
    split
    · rfl
    · simp [h]
  · rw [agg_override]
    norm_num [List.filter]
    exact ⟨List.cons_ne_nil _ _, rfl⟩

/-- C7 counterexample: on an empty candidate index the
`unlock_simulator.py` matcher does not leave the source name unmatched —
it crashes (unpacks `extractOne`'s `None`), modelled by a `none` result for
the whole call. -/
theorem match_names_sim_empty_crash :
    match_names_sim (fun _ _ => (0 : ℚ)) ["ΑΘΗΝΑΙΩΝ"] [] = none := rfl

/-- C7 amended: on an empty candidate index the
`choropleth_municipalities.py` matcher leaves every source name unmatched
(empty result, normal termination), but the `unlock_simulator.py` matcher
raises on the first source name (it unpacks `process.extractOne`'s `None`)
and terminates normally only when the target list is empty too. -/
theorem match_names_empty_index (scorer : String → String → ℚ)
    (targets : List String) :
    match_names scorer targets [] = some [] ∧
    (targets ≠ [] → match_names_sim scorer targets [] = none) ∧
    match_names_sim scorer [] [] = some [] := by
  refine ⟨?_, ?_, rfl⟩
  · induction targets with
    | nil => rfl
    | cons t ts ih =>
      rw [match_names]
      simpa using ih
  · intro h
    cases targets with
    | nil => exact absurd rfl h
    | cons t ts => rfl

/-- C7 witness: the amended behaviour at one concrete source name. -/
theorem match_names_empty_index_witness :
    match_names (fun _ _ => (0 : ℚ)) ["ΠΕΙΡΑΙΩΣ"] [] = some [] ∧
    match_names_sim (fun _ _ => (0 : ℚ)) ["ΠΕΙΡΑΙΩΣ"] [] = none :=
  ⟨(match_names_empty_index _ ["ΠΕΙΡΑΙΩΣ"]).1,
   (match_names_empty_index (fun _ _ => (0 : ℚ)) ["ΠΕΙΡΑΙΩΣ"]).2.1
     (by simp)⟩

theorem max_by_score_spec :
    ∀ l : List (String × ℚ), l ≠ [] →
      ∃ p, max_by_score l = some p ∧ p ∈ l ∧ ∀ q ∈ l, q.2 ≤ p.2
  | [], h => absurd rfl h
  | [p], _ => by
    refine ⟨p, rfl, List.mem_singleton_self p, ?_⟩
    intro q hq
    rw [List.mem_singleton.mp hq]
  | p :: q :: qs, _ => by
    obtain ⟨r, hr, hmem, hall⟩ := max_by_score_spec (q :: qs) (by simp)
    by_cases hlt : p.2 < r.2
    · refine ⟨r, ?_, List.mem_cons_of_mem p hmem, ?_⟩
      · rw [max_by_score, hr]
        simp [hlt]
      · intro s hs
        rcases List.mem_cons.mp hs with h | h
        · rw [h]
          exact hlt.le
        · exact hall s h
    · refine ⟨p, ?_, List.mem_cons_self p _, ?_⟩
      · rw [max_by_score, hr]
        simp [hlt]
      · intro s hs
        rcases List.mem_cons.mp hs with h | h
        · rw [h]
        · exact (hall s h).trans (not_lt.mp hlt)

theorem extractOne_total (scorer : String → String → ℚ) (query : String)
    (choices : List String) (hne : choices ≠ [])
    (hnn : ∀ c ∈ choices, 0 ≤ scorer query c) :
    ∃ b s, extractOne scorer query choices = some (b, s) ∧ b ∈ choices ∧
      s = scorer query b ∧ ∀ c ∈ choices, scorer query c ≤ s := by
  have hfil : ((choices.map fun c => (c, scorer query c)).filter fun p =>
      decide (0 ≤ p.2)) = choices.map fun c => (c, scorer query c) := by
    rw [List.filter_eq_self]
    intro p hp
    obtain ⟨c, hc, rfl⟩ := List.mem_map.mp hp
    simpa using hnn c hc
  have hmapne : choices.map (fun c => (c, scorer query c)) ≠ [] := by
    simp [hne]
  rw [extractOne, hfil]
  obtain ⟨p, hp, hpm, hall⟩ := max_by_score_spec _ hmapne
  obtain ⟨c, hc, rfl⟩ := List.mem_map.mp hpm
  exact ⟨c, scorer query c, hp, hc, rfl, fun d hd =>
    hall (d, scorer query d) (List.mem_map_of_mem _ hd)⟩

theorem match_names_total_aux (scorer : String → String → ℚ)
    (cands : List (String × String)) (hne : cands ≠ [])
    (hnn : ∀ q c, 0 ≤ scorer q c) :
    ∀ targets : List String, ∃ l,
      match_names scorer targets cands = some l ∧
      ∀ t ∈ targets, ∃ m s, (t, m, s) ∈ l ∧
        (s = 100 ∨ ∀ k ∈ cands.map Prod.fst, scorer (normalize t) k ≤ s) := by
  intro targets
  induction targets with
  | nil => exact ⟨[], rfl, by simp⟩
  | cons t ts ih =>
    obtain ⟨l, hl, hprop⟩ := ih
    rcases hlu : cands.lookup (normalize t) with _ | v
    · have hmapne : cands.map Prod.fst ≠ [] := by simp [hne]
      obtain ⟨b, s, heq, hb, hsv, hall⟩ := extractOne_total scorer
        (normalize t) (cands.map Prod.fst) hmapne
        (fun c _ => hnn (normalize t) c)
      refine ⟨(t, (cands.lookup b).getD "", s) :: l, ?_, ?_⟩
      · rw [match_names, hlu, if_neg hne, heq, hl]
      · intro t' ht'
        rcases List.mem_cons.mp ht' with h | h
        · subst h
          exact ⟨(cands.lookup b).getD "", s, List.mem_cons_self _ _,
            Or.inr hall⟩
        · obtain ⟨m, s', hm, hs'⟩ := hprop t' h
          exact ⟨m, s', List.mem_cons_of_mem _ hm, hs'⟩
    · refine ⟨(t, v, 100) :: l, ?_, ?_⟩
      · rw [match_names, hlu, hl]
      · intro t' ht'
        rcases List.mem_cons.mp ht' with h | h
        · subst h
          exact ⟨v, 100, List.mem_cons_self _ _, Or.inl rfl⟩
        · obtain ⟨m, s', hm, hs'⟩ := hprop t' h
          exact ⟨m, s', List.mem_cons_of_mem _ hm, hs'⟩

theorem match_names_sim_total_aux (scorer : String → String → ℚ)
    (cands : List (String × String)) (hne : cands ≠ [])
    (hnn : ∀ q c, 0 ≤ scorer q c) :
    ∀ targets : List String, ∃ l,
      match_names_sim scorer targets cands = some l ∧
      ∀ t ∈ targets, ∃ m, (t, m) ∈ l := by
  intro targets
  induction targets with
  | nil => exact ⟨[], rfl, by simp⟩
  | cons t ts ih =>
    obtain ⟨l, hl, hprop⟩ := ih
    rcases hlu : cands.lookup (normalize t) with _ | v
    · have hmapne : cands.map Prod.fst ≠ [] := by simp [hne]
      obtain ⟨b, s, heq, hb, hsv, hall⟩ := extractOne_total scorer
        (normalize t) (cands.map Prod.fst) hmapne
        (fun c _ => hnn (normalize t) c)
      refine ⟨(t, (cands.lookup b).getD "") :: l, ?_, ?_⟩
      · rw [match_names_sim, hlu, heq, hl]
      · intro t' ht'
        rcases List.mem_cons.mp ht' with h | h
        · subst h
          exact ⟨(cands.lookup b).getD "", List.mem_cons_self _ _⟩
        · obtain ⟨m, hm⟩ := hprop t' h
          exact ⟨m, List.mem_cons_of_mem _ hm⟩
    · refine ⟨(t, v) :: l, ?_, ?_⟩
      · rw [match_names_sim, hlu, hl]
      · intro t' ht'
        rcases List.mem_cons.mp ht' with h | h
        · subst h
          exact ⟨v, List.mem_cons_self _ _⟩
        · obtain ⟨m, hm⟩ := hprop t' h
          exact ⟨m, List.mem_cons_of_mem _ hm⟩

/-- C10: with a non-empty candidate index and a nonnegative similarity
scorer (as `fuzz.token_sort_ratio` is), both matchers terminate normally
and assign a matched candidate to every source name: an exact normalized
hit scores 100, and otherwise the fuzzy fallback picks a candidate whose
score dominates every candidate key's similarity, with no minimum-score
threshold — no source name is left unmatched. -/
theorem match_names_nonempty_total (scorer : String → String → ℚ)
    (targets : List String) (cands : List (String × String))
    (hne : cands ≠ []) (hnn : ∀ q c, 0 ≤ scorer q c) :
    (∃ l, match_names scorer targets cands = some l ∧
      ∀ t ∈ targets, ∃ m s, (t, m, s) ∈ l ∧
        (s = 100 ∨ ∀ k ∈ cands.map Prod.fst, scorer (normalize t) k ≤ s)) ∧
    (∃ l2, match_names_sim scorer targets cands = some l2 ∧
      ∀ t ∈ targets, ∃ m, (t, m) ∈ l2) :=
  ⟨match_names_total_aux scorer cands hne hnn targets,
   match_names_sim_total_aux scorer cands hne hnn targets⟩

/-- C10 witness: a one-entry index and one source name with a constant
scorer. -/
theorem match_names_nonempty_total_witness :
    ∃ l, match_names (fun _ _ => (50 : ℚ)) ["ΑΘΗΝΑ"] [("athens", "Athens")] =
        some l ∧
      ∀ t ∈ ["ΑΘΗΝΑ"], ∃ m s, (t, m, s) ∈ l ∧
        (s = 100 ∨ ∀ k ∈ [("athens", "Athens")].map Prod.fst,
          (fun _ _ => (50 : ℚ)) (normalize t) k ≤ s) :=
  (match_names_nonempty_total (fun _ _ => (50 : ℚ)) ["ΑΘΗΝΑ"]
    [("athens", "Athens")] (by simp) (fun _ _ => by norm_num)).1

theorem score_le_refl (x : Option ℚ) : score_le x x := by
  cases x
  · trivial
  · exact le_refl _

theorem score_le_trans :
    ∀ {x y z : Option ℚ}, score_le x y → score_le y z → score_le x z
  | none, _, _, _, _ => trivial
  | some _, none, _, h1, _ => h1.elim
  | some _, some _, none, _, h2 => h2.elim
  | some _, some _, some _, h1, h2 => le_trans h1 h2

theorem score_le_antisymm :
    ∀ {x y : Option ℚ}, score_le x y → score_le y x → x = y
  | none, none, _, _ => rfl
  | none, some _, _, h2 => h2.elim
  | some _, none, h1, _ => h1.elim
  | some _, some _, h1, h2 => by rw [le_antisymm h1 h2]

theorem row_le_iff (a b : MRow) :
    (row_le a b = true) ↔ score_le b.score a.score := by
  rcases ha : a.score with _ | x <;> rcases hb : b.score with _ | y <;>
    simp [row_le, score_le, ha, hb]

theorem omax_none_right (x : Option ℚ) : omax x none = x := by
  cases x <;> rfl

theorem omax_choice (x y : Option ℚ) : omax x y = x ∨ omax x y = y := by
  rcases x with _ | a
  · exact Or.inr (by simp [omax])
  · rcases y with _ | b
    · exact Or.inl (by simp [omax])
    · rcases max_choice a b with h | h
      · exact Or.inl (by simp [omax, h])
      · exact Or.inr (by simp [omax, h])

theorem score_le_omax_left : ∀ x y : Option ℚ, score_le x (omax x y)
  | none, _ => trivial
  | some a, none => le_refl a
  | some a, some b => le_max_left a b

theorem score_le_omax_right : ∀ x y : Option ℚ, score_le y (omax x y)
  | none, none => trivial
  | none, some b => le_refl b
  | some _, none => trivial
  | some a, some b => le_max_right a b

theorem max_score_le (g : List MRow) (r : MRow) (hr : r ∈ g) :
    score_le r.score (max_score g) := by
  induction g with
  | nil => exact absurd hr (List.not_mem_nil r)
  | cons a t ih =>
    rcases List.mem_cons.mp hr with h | h
    · subst h
      exact score_le_omax_left r.score (max_score t)
    · exact score_le_trans (ih h) (score_le_omax_right a.score (max_score t))

theorem max_score_mem (g : List MRow) (hg : g ≠ []) :
    ∃ r ∈ g, r.score = max_score g := by
  induction g with
  | nil => exact absurd rfl hg
  | cons a t ih =>
    rcases omax_choice a.score (max_score t) with h | h
    · exact ⟨a, List.mem_cons_self a t, h.symm⟩
    · by_cases ht : t = []
      · subst ht
        exact ⟨a, List.mem_cons_self a [], (omax_none_right a.score).symm⟩
      · obtain ⟨r, hr, hrs⟩ := ih ht
        refine ⟨r, List.mem_cons_of_mem a hr, ?_⟩
        rw [hrs]
        exact h.symm

theorem drop_dup_filter :
    ∀ (l : List MRow) (seen : List (Option String)) (k : Option String),
      (drop_dup_by l seen).filter (fun r => decide (r.matched = k)) =
        if k ∈ seen then []
        else (l.filter fun r => decide (r.matched = k)).take 1 := by
  intro l
  induction l with
  | nil =>
    intro seen k
    simp [drop_dup_by]
  | cons r rs ih =>
    intro seen k
    rw [drop_dup_by]
    by_cases hr : r.matched ∈ seen
    · rw [if_pos hr, ih seen k]
      by_cases hk : k ∈ seen
      · rw [if_pos hk, if_pos hk]
      · have hne : ¬(r.matched = k) := fun h => hk (h ▸ hr)
        rw [if_neg hk, if_neg hk, List.filter_cons_of_neg (by simp [hne])]
    · rw [if_neg hr]
      by_cases hk : r.matched = k
      · subst hk
        rw [List.filter_cons_of_pos (by simp),
          ih (r.matched :: seen) r.matched,
          if_pos (List.mem_cons_self _ _), if_neg hr,
          List.filter_cons_of_pos (by simp)]
        simp
      · rw [List.filter_cons_of_neg (by simp [hk]),
          ih (r.matched :: seen) k]
        have hmem : (k ∈ r.matched :: seen) ↔ k ∈ seen := by
          simp only [List.mem_cons, or_iff_right_iff_imp]
          intro h
          exact absurd h.symm hk
        rw [if_congr hmem rfl rfl, List.filter_cons_of_neg (by simp [hk])]

theorem drop_dup_invariant :
    ∀ (l : List MRow) (seen : List (Option String)),
      (drop_dup_by l seen).Pairwise (fun a b => a.matched ≠ b.matched) ∧
      ∀ r ∈ drop_dup_by l seen, r.matched ∉ seen := by
  intro l
  induction l with
  | nil =>
    intro seen
    exact ⟨List.Pairwise.nil, by simp [drop_dup_by]⟩
  | cons r rs ih =>
    intro seen
    rw [drop_dup_by]
    by_cases hr : r.matched ∈ seen
    · rw [if_pos hr]
      exact ih seen
    · rw [if_neg hr]
      obtain ⟨hp, hmem⟩ := ih (r.matched :: seen)
      refine ⟨List.Pairwise.cons ?_ hp, ?_⟩
      · intro b hb heq
        exact hmem b hb (by rw [← heq]; exact List.mem_cons_self _ _)
      · intro b hb
        rcases List.mem_cons.mp hb with h | h
        · subst h
          exact hr
        · exact fun hbs => hmem b h (List.mem_cons_of_mem _ hbs)

/-- C3 counterexample: the claim says rows with absent `matched_candidate`
are dropped by the deduplicator.  On a single unmatched row — whose only
descending-sorted permutation is itself, so the unstable sort order is
immaterial — the deduplicated output keeps that row, with
`matched = none`. -/
theorem dedup_keeps_na_row :
    sorted_desc [⟨"a", none, none⟩] [⟨"a", none, none⟩] ∧
    dedup_from [⟨"a", none, none⟩] = [⟨"a", none, none⟩] ∧
    (⟨"a", none, none⟩ : MRow).matched = none :=
  ⟨⟨List.Perm.refl _, by simp⟩, rfl, rfl⟩

/-- C3 amended: for every descending-sorted permutation `S` of the input
rows (i.e. every possible output of the unstable default sort), the
deduplicated output keeps, per `matched_candidate` group — including the
absent-`NA` group, whose single survivor is only discarded later by the
geometry join — exactly one row, and that row carries the maximal score of
its group; which maximal row survives among equal scores depends on the
sort's unspecified tie order, so no first-seen tie-break is guaranteed.
No two output rows share the same `matched_candidate`. -/
theorem dedup_group_best (rows S : List MRow) (hS : sorted_desc rows S)
    (k : Option String) :
    (rows.filter (fun r => decide (r.matched = k)) = [] →
      (dedup_from S).filter (fun r => decide (r.matched = k)) = []) ∧
    (rows.filter (fun r => decide (r.matched = k)) ≠ [] →
      ∃ r, (dedup_from S).filter (fun r => decide (r.matched = k)) = [r] ∧
        r ∈ rows.filter (fun r => decide (r.matched = k)) ∧
        r.score = max_score (rows.filter fun r => decide (r.matched = k))) ∧
    (dedup_from S).Pairwise (fun a b => a.matched ≠ b.matched) := by
  obtain ⟨hperm, hsort⟩ := hS
  have hfil : (dedup_from S).filter (fun r => decide (r.matched = k)) =
      (S.filter fun r => decide (r.matched = k)).take 1 := by
    rw [dedup_from, drop_dup_filter S [] k, if_neg (List.not_mem_nil k)]
  have hTperm : List.Perm (S.filter fun r => decide (r.matched = k))
      (rows.filter fun r => decide (r.matched = k)) := hperm.filter _
  refine ⟨?_, ?_, ?_⟩
  · intro hg
    rw [hfil]
    have hT : S.filter (fun r => decide (r.matched = k)) = [] := by
      rw [hg] at hTperm
      exact hTperm.eq_nil
    rw [hT]
    rfl
  · intro hg
    have hTnil : S.filter (fun r => decide (r.matched = k)) ≠ [] := by
      intro h
      rw [h] at hTperm
      exact hg hTperm.symm.eq_nil
    obtain ⟨t0, T', hTeq⟩ := List.exists_cons_of_ne_nil hTnil
    have ht0T : t0 ∈ S.filter (fun r => decide (r.matched = k)) := by
      rw [hTeq]
      exact List.mem_cons_self _ _
    refine ⟨t0, ?_, hTperm.subset ht0T, ?_⟩
    · rw [hfil, hTeq]
      rfl
    · have h1 : score_le t0.score
          (max_score (rows.filter fun r => decide (r.matched = k))) :=
        max_score_le _ t0 (hTperm.subset ht0T)
      obtain ⟨rm, hrm, hrmM⟩ :=
        max_score_mem (rows.filter fun r => decide (r.matched = k)) hg
      have hrmT : rm ∈ S.filter (fun r => decide (r.matched = k)) :=
        hTperm.mem_iff.mpr hrm
      rw [hTeq] at hrmT
      rcases List.mem_cons.mp hrmT with h | h
      · rw [← h, hrmM]
      · have hsortT : (S.filter fun r => decide (r.matched = k)).Pairwise
            (fun a b => row_le a b = true) :=
          hsort.sublist (List.filter_sublist _)
        rw [hTeq] at hsortT
        have hle := (List.pairwise_cons.mp hsortT).1 rm h
        have h2 : score_le rm.score t0.score := (row_le_iff t0 rm).mp hle
        rw [hrmM] at h2
        exact score_le_antisymm h1 h2
  · rw [dedup_from]
    exact (drop_dup_invariant S []).1

/-- C3 witness: a two-row `"X"` group with distinct scores 50 and 90; the
descending-sorted permutation swaps them, and the kept row is a max-score
member of the group. -/
theorem dedup_group_best_witness :
    ∃ r, (dedup_from [⟨"b", some "X", some 90⟩,
        ⟨"a", some "X", some 50⟩]).filter
        (fun q => decide (q.matched = some "X")) = [r] ∧
      r ∈ ([⟨"a", some "X", some 50⟩, ⟨"b", some "X", some 90⟩] :
          List MRow).filter (fun q => decide (q.matched = some "X")) ∧
      r.score = max_score (([⟨"a", some "X", some 50⟩,
        ⟨"b", some "X", some 90⟩] : List MRow).filter
          fun q => decide (q.matched = some "X")) :=
  (dedup_group_best [⟨"a", some "X", some 50⟩, ⟨"b", some "X", some 90⟩]
    [⟨"b", some "X", some 90⟩, ⟨"a", some "X", some 50⟩]
    ⟨List.Perm.swap _ _ _, by norm_num [List.pairwise_cons, row_le]⟩
    (some "X")).2.1 (by simp [List.filter])

/-- C4 witness: the non-degenerate branch evaluated at the spec's concrete
case (with the untouched columns visibly `NaN`). -/
theorem agg_override_weighted_witness :
    agg_override "Lesbos" ["ΔΥΤΙΚΗΣ ΛΕΣΒΟΥ", "ΜΥΤΙΛΗΝΗΣ"]
        [⟨1, "ΔΥΤΙΚΗΣ ΛΕΣΒΟΥ", 100, 20, 5, 5, 4, 4, 2, 1 / 5, 5 / 4, 1 / 50⟩,
         ⟨2, "ΜΥΤΙΛΗΝΗΣ", 100, 40, 10, 10, 8, 8, 4, 2 / 5, 5 / 3, 1 / 25⟩] =
      some ⟨"Lesbos (agg)", "Lesbos", 100, 3 / 10, 200,
        none, none, none, none, none, none, none, none, none⟩ :=
  (agg_override_weighted "Lesbos" ["ΔΥΤΙΚΗΣ ΛΕΣΒΟΥ", "ΜΥΤΙΛΗΝΗΣ"]
    [⟨1, "ΔΥΤΙΚΗΣ ΛΕΣΒΟΥ", 100, 20, 5, 5, 4, 4, 2, 1 / 5, 5 / 4, 1 / 50⟩,
     ⟨2, "ΜΥΤΙΛΗΝΗΣ", 100, 40, 10, 10, 8, 8, 4, 2 / 5, 5 / 3, 1 / 25⟩]
    (by norm_num [List.filter]
        exact List.cons_ne_nil _ _)
    (by norm_num [List.filter])).2.2.2

end Datathon
